import Mathlib

/-!
Verification of the core pipeline of `country_image_downloader.py`.

Strings from the Python source are modelled as `List Char`; Python's `set`
accumulation is modelled by lists (order fixed by the model) or `Finset`s
where the claims are about exact directory contents.  Fallible external
collaborators (HTTP fetch, image decode, directory creation, the zip writer)
are modelled with `Except Unit`.  Every definition is transcribed from the
function of the source file named in its doc comment.
-/

set_option linter.unusedVariables false

/-- Python's substring test `pat in s` on strings, on `List Char`. -/
def isSubOf (pat : List Char) : List Char → Bool
  | [] => pat.isEmpty
  | c :: rest => pat.isPrefixOf (c :: rest) || isSubOf pat rest

/-- The test guarding the rewrite in `_get_high_res_image_url`
(`"googleusercontent.com" in url and ("=w" in url or "=s" in url or "=h" in url)`,
source lines 562). -/
def high_res_cond (url : List Char) : Bool :=
  isSubOf "googleusercontent.com".toList url &&
    (isSubOf "=w".toList url || isSubOf "=s".toList url || isSubOf "=h".toList url)

/-- `_get_high_res_image_url` (source lines 548-570): when `high_res_cond`
holds, Python's `url.split("=")[0]` (the prefix of the url before its first
`'='`, i.e. `takeWhile (· != '=')`) is kept and `"=w2048-h2048"` is appended;
otherwise the url is returned unchanged. -/
def get_high_res_image_url (url : List Char) : List Char :=
  if high_res_cond url then
    url.takeWhile (fun c => c != '=') ++ "=w2048-h2048".toList
  else url

theorem takeWhile_append_eq_left (t r : List Char) (p : Char → Bool)
    (ht : ∀ c ∈ t, p c = true) (hr : ∀ c rs, r = c :: rs → p c = false) :
    (t ++ r).takeWhile p = t := by
  induction t with
  | nil =>
    simp only [List.nil_append]
    cases r with
    | nil => simp
    | cons c rs => simp [List.takeWhile_cons, hr c rs rfl]
  | cons a t ih =>
    have ha : p a = true := ht a (by simp)
    simp only [List.cons_append, List.takeWhile_cons, ha]
    simp only [if_true]
    rw [ih (fun c hc => ht c (by simp [hc]))]

theorem dropWhile_head_false (p : Char → Bool) (l : List Char) :
    l.dropWhile p = [] ∨ ∃ c r, l.dropWhile p = c :: r ∧ p c = false := by
  induction l with
  | nil => exact Or.inl rfl
  | cons a t ih =>
    by_cases ha : p a = true
    · simpa [List.dropWhile_cons, ha] using ih
    · refine Or.inr ⟨a, t, ?_, by simpa using ha⟩
      simp [List.dropWhile_cons, Bool.eq_false_iff.mpr ha]

/-- Claim C3: the URL normalizer `_get_high_res_image_url` is idempotent:
normalizing twice yields the same result as normalizing once, for every
input string. -/
theorem get_high_res_image_url_idempotent (u : List Char) :
    get_high_res_image_url (get_high_res_image_url u) = get_high_res_image_url u := by
  cases h : high_res_cond u with
  | false =>
    have h1 : get_high_res_image_url u = u := by
      unfold get_high_res_image_url; rw [h]; simp
    rw [h1, h1]
  | true =>
    have h1 : get_high_res_image_url u =
        u.takeWhile (fun c => c != '=') ++ "=w2048-h2048".toList := by
      unfold get_high_res_image_url; rw [h]; simp
    rw [h1]
    cases h2 : high_res_cond (u.takeWhile (fun c => c != '=') ++ "=w2048-h2048".toList) with
    | false => unfold get_high_res_image_url; rw [h2]; simp
    | true =>
      unfold get_high_res_image_url; rw [h2]; simp only [if_true]
      congr 1
      apply takeWhile_append_eq_left
      · intro c hc; exact List.mem_takeWhile_imp (p := fun c => c != '=') hc
      · intro c rs hx
        have : c = '=' := by
          have : "=w2048-h2048".toList = '=' :: "w2048-h2048".toList := rfl
          rw [this] at hx
          exact (List.cons.injEq _ _ _ _ ▸ hx).1.symm ▸ rfl
        simp [this]

/-- The input witnessing that `_get_high_res_image_url` strips more than the
size-directive suffix: everything after the first `'='` is removed, including
the path segment `img.png`. -/
def stripCounterexampleUrl : List Char :=
  "https://googleusercontent.com/a=b/img.png=w100".toList

/-- Claim C4, counterexample: on a matching URL whose first `'='` precedes
non-size-directive content, the normalizer does not strip "only the size
directives and nothing else": the path segment `img.png` present in the input
is absent from the output, because the split happens at the *first* `'='`. -/
theorem get_high_res_image_url_strip_counterexample :
    get_high_res_image_url stripCounterexampleUrl =
      "https://googleusercontent.com/a=w2048-h2048".toList ∧
    isSubOf "img.png".toList stripCounterexampleUrl = true ∧
    isSubOf "img.png".toList (get_high_res_image_url stripCounterexampleUrl) = false := by
  decide

/-- Claim C4 (amended): `_get_high_res_image_url` is a total function (it
never raises); if the URL contains `googleusercontent.com` and one of `=w`,
`=s`, `=h` as substrings, it returns the prefix of the URL before its first
`'='` — which can strip more than the size directives — with `=w2048-h2048`
appended; every other URL is returned unchanged. -/
theorem get_high_res_image_url_spec (u : List Char) :
    (high_res_cond u = true →
      ∃ pre rest, u = pre ++ rest ∧ (∀ c ∈ pre, c ≠ '=') ∧
        (rest = [] ∨ ∃ r, rest = '=' :: r) ∧
        get_high_res_image_url u = pre ++ "=w2048-h2048".toList) ∧
    (high_res_cond u = false → get_high_res_image_url u = u) := by
  constructor
  · intro h
    refine ⟨u.takeWhile (fun c => c != '='), u.dropWhile (fun c => c != '='),
      (List.takeWhile_append_dropWhile (p := fun c => c != '=') (l := u)).symm, ?_, ?_, ?_⟩
    · intro c hc
      have := List.mem_takeWhile_imp hc
      simpa using this
    · rcases dropWhile_head_false (fun c => c != '=') u with hnil | ⟨c, r, hcr, hc⟩
      · exact Or.inl hnil
      · refine Or.inr ⟨r, ?_⟩
        have : c = '=' := by simpa using hc
        rw [hcr, this]
    · unfold get_high_res_image_url; rw [h]; simp
  · intro h
    unfold get_high_res_image_url; rw [h]; simp

/-- Witness for C4's amended theorem at a concrete matching input. -/
theorem get_high_res_image_url_spec_witness :
    high_res_cond "googleusercontent.com/x=w9".toList = true ∧
    (∃ pre rest, "googleusercontent.com/x=w9".toList = pre ++ rest ∧
      (∀ c ∈ pre, c ≠ '=') ∧ (rest = [] ∨ ∃ r, rest = '=' :: r) ∧
      get_high_res_image_url "googleusercontent.com/x=w9".toList =
        pre ++ "=w2048-h2048".toList) :=
  ⟨by decide, (get_high_res_image_url_spec "googleusercontent.com/x=w9".toList).1 (by decide)⟩

/-- Value of a leading maximal digit run (regex `(\d+)` right after the tag),
`none` when the first character is not a digit. -/
def digitRunVal (l : List Char) : Option Nat :=
  let ds := l.takeWhile Char.isDigit
  if ds.isEmpty then none
  else some (ds.foldl (fun a c => 10 * a + (c.toNat - '0'.toNat)) 0)

/-- Python's `re.search(r"=<tag>(\d+)", url)` followed by `int(.group(1))`:
scan left to right for the earliest `'='` followed by `tag` followed by at
least one digit; return the value of the maximal digit run there. -/
def searchSize (tag : Char) : List Char → Option Nat
  | [] => none
  | x :: rest =>
    if x = '=' then
      match rest with
      | y :: rest2 =>
        if y = tag then
          match digitRunVal rest2 with
          | some n => some n
          | none => searchSize tag rest
        else searchSize tag rest
      | [] => none
    else searchSize tag rest

/-- Host/path fragments treated as non-photo by `_filter_image_urls`
(source lines 601-607). -/
def deny_tokens : List (List Char) :=
  ["maps.googleapis.com", "maps.gstatic.com", "googleusercontent.com/gadgets",
   "google.com/images", "gstatic.com/images"].map String.toList

/-- The supported image extensions tested by `_filter_image_urls`
(source line 611). -/
def filter_exts : List (List Char) :=
  [".jpg", ".jpeg", ".png", ".webp", ".gif"].map String.toList

/-- The per-URL keep/drop decision of `_filter_image_urls` (source lines
584-614): drop when both `=w`/`=h` occur and both parse to sizes with either
below 100; drop denylisted hosts; drop URLs that neither end in a supported
extension (case-insensitively) nor carry `=w`/`=h`; keep the rest. -/
def keepUrl (url : List Char) : Bool :=
  let sizeDrop : Bool :=
    if isSubOf "=w".toList url && isSubOf "=h".toList url then
      match searchSize 'w' url, searchSize 'h' url with
      | some w, some h => decide (w < 100) || decide (h < 100)
      | _, _ => false
    else false
  if sizeDrop then false
  else if deny_tokens.any (fun t => isSubOf t url) then false
  else if !(filter_exts.any (fun e => e.isSuffixOf (url.map Char.toLower))) &&
          !(isSubOf "=w".toList url) && !(isSubOf "=h".toList url) then false
  else true

/-- `_filter_image_urls` (source lines 572-616).  The Python set iteration is
modelled by a list (iteration order fixed by the model); the set `add` of each
surviving URL is the filter. -/
def filter_image_urls (urls : List (List Char)) : List (List Char) :=
  urls.filter keepUrl

/-- Claim C10: the filter stage returns a subset of its input (it never adds
or rewrites a URL, only drops members) and is idempotent. -/
theorem filter_image_urls_subset_idempotent (s : List (List Char)) :
    List.Sublist (filter_image_urls s) s ∧
    (∀ u ∈ filter_image_urls s, u ∈ s) ∧
    filter_image_urls (filter_image_urls s) = filter_image_urls s := by
  refine ⟨List.filter_sublist s, fun u hu => (List.filter_sublist s).subset hu, ?_⟩
  unfold filter_image_urls
  rw [List.filter_filter]
  simp

/-- A URL declaring width 50 via `=w50` but carrying no `=h` directive. -/
def smallWidthUrl : List Char := "https://x.com/a=w50".toList

/-- Claim C5, counterexample: a URL whose declared size directive parses to
width 50 < 100 is *kept* by `_filter_image_urls`, because the size check only
runs when both `=w` and `=h` occur as substrings. -/
theorem filter_image_urls_small_counterexample :
    filter_image_urls [smallWidthUrl] = [smallWidthUrl] ∧
    searchSize 'w' smallWidthUrl = some 50 ∧ 50 < 100 := by
  decide

theorem isSubOf_cons (pat : List Char) (c : Char) (rest : List Char)
    (h : isSubOf pat rest = true) : isSubOf pat (c :: rest) = true := by
  simp [isSubOf, h]

theorem searchSize_isSubOf (tag : Char) (l : List Char) (n : Nat)
    (h : searchSize tag l = some n) : isSubOf ['=', tag] l = true := by
  induction l with
  | nil => simp [searchSize] at h
  | cons x rest ih =>
    simp only [searchSize] at h
    by_cases hx : x = '='
    · subst hx
      simp only [if_pos rfl] at h
      cases rest with
      | nil => simp at h
      | cons y rest2 =>
        by_cases hy : y = tag
        · subst hy
          simp [isSubOf, List.isPrefixOf]
        · simp only [if_neg hy] at h
          exact isSubOf_cons _ _ _ (ih h)
    · simp only [if_neg hx] at h
      exact isSubOf_cons _ _ _ (ih h)

/-- Claim C5 (amended): the size check of `_filter_image_urls` runs only when
both an `=w` and an `=h` directive are present and both parse; in that case a
URL surviving the filter has both parsed dimensions at least 100.  (A URL
carrying only one parseable directive is never size-checked — see the
counterexample.) -/
theorem filter_image_urls_size_check (s : List (List Char)) (u : List Char)
    (w h : Nat) (hu : u ∈ filter_image_urls s) (hw : searchSize 'w' u = some w)
    (hh : searchSize 'h' u = some h) : 100 ≤ w ∧ 100 ≤ h := by
  have hkeep : keepUrl u = true := (List.mem_filter.mp hu).2
  have hiw : isSubOf "=w".toList u = true := searchSize_isSubOf 'w' u w hw
  have hih : isSubOf "=h".toList u = true := searchSize_isSubOf 'h' u h hh
  unfold keepUrl at hkeep
  rw [hiw, hih, hw, hh] at hkeep
  simp only [Bool.and_self, if_true] at hkeep
  by_cases hwlt : w < 100
  · simp [hwlt] at hkeep
  · by_cases hhlt : h < 100
    · simp [hhlt] at hkeep
    · omega

/-- Witness for C5's amended theorem at a concrete surviving URL carrying
`=w200` and `=h300`. -/
theorem filter_image_urls_size_check_witness :
    ("https://x.com/a=w200=h300.jpg".toList ∈
      filter_image_urls ["https://x.com/a=w200=h300.jpg".toList]) ∧
    searchSize 'w' "https://x.com/a=w200=h300.jpg".toList = some 200 ∧
    searchSize 'h' "https://x.com/a=w200=h300.jpg".toList = some 300 ∧
    (100 ≤ 200 ∧ 100 ≤ 300) :=
  ⟨by decide, by decide, by decide,
    filter_image_urls_size_check ["https://x.com/a=w200=h300.jpg".toList]
      "https://x.com/a=w200=h300.jpg".toList 200 300
      (by decide) (by decide) (by decide)⟩

/-- The truncation applied after filtering in `download_images_for_country`
(source lines 212-214): `if max_images > 0 and len(image_urls) > max_images:
image_urls = list(image_urls)[:max_images]`.  `max_images` is the Python int
from `--max-images`, hence modelled as `Int`. -/
def limit_images (urls : List (List Char)) (max_images : Int) : List (List Char) :=
  if 0 < max_images ∧ (urls.length : Int) > max_images then
    urls.take max_images.toNat
  else urls

/-- Claim C6: for positive `max_count` the truncation yields exactly
`min (length input) max_count` elements — all of the input when it is not
larger, its first `max_count` elements otherwise — and never more than
`max_count`; `max_count = 0` means no limit. -/
theorem limit_images_spec (l : List (List Char)) (m : Int) :
    (0 < m → ((limit_images l m).length : Int) ≤ m) ∧
    (0 < m → ((limit_images l m).length : Int) = min (l.length : Int) m) ∧
    (0 < m → (l.length : Int) ≤ m → limit_images l m = l) ∧
    (0 < m → m < (l.length : Int) → limit_images l m = l.take m.toNat) ∧
    (m = 0 → limit_images l m = l) := by
  by_cases hc : 0 < m ∧ (l.length : Int) > m
  · obtain ⟨hm, hl⟩ := hc
    have he : limit_images l m = l.take m.toNat := by
      unfold limit_images
      rw [if_pos ⟨hm, hl⟩]
    have hmle : m.toNat ≤ l.length := by omega
    have ht : (l.take m.toNat).length = m.toNat := by
      rw [List.length_take]; exact Nat.min_eq_left hmle
    rw [he]
    refine ⟨?_, ?_, ?_, ?_, ?_⟩ <;> intros <;> first
      | rfl
      | omega
  · have he : limit_images l m = l := by
      unfold limit_images
      rw [if_neg hc]
    rw [he]
    have hor : ¬ (0:Int) < m ∨ ¬ (l.length : Int) > m := by tauto
    refine ⟨?_, ?_, ?_, ?_, ?_⟩ <;> intros <;> first
      | rfl
      | (rcases hor with h1 | h1 <;> omega)

/-- Witness for C6 at a concrete list of three URLs and `max_count = 2`. -/
theorem limit_images_spec_witness :
    (0 : Int) < 2 ∧
    ((limit_images ["a".toList, "b".toList, "c".toList] 2).length : Int) =
      min (([("a".toList), "b".toList, "c".toList].length : Nat) : Int) 2 :=
  ⟨by decide, (limit_images_spec ["a".toList, "b".toList, "c".toList] 2).2.1 (by decide)⟩

/-- The characters replaced by `_sanitize_filename`'s first substitution,
regex `[\\/*?:"<>|]` (source line 273). -/
def illegal_chars : List Char := ['\\', '/', '*', '?', ':', '\"', '<', '>', '|']

/-- `re.sub(r'[\\/*?:"<>|]', "_", name)`: each illegal character becomes an
underscore (source line 273). -/
def replace_illegal (s : List Char) : List Char :=
  s.map fun c => if c ∈ illegal_chars then '_' else c

/-- The ASCII whitespace class of Python's regex `\s` / `str.strip` /
`str.isspace` (space, tab, newline, carriage return, vertical tab, form
feed). -/
def isSpaceChar (c : Char) : Bool :=
  c == ' ' || c == '\t' || c == '\n' || c == '\r' || c == '\x0b' || c == '\x0c'

/-- One step of `collapse_spaces`: prepend character `c` to the collapsed
tail `r`, merging `c` into a following space when `c` is whitespace. -/
def collapse_push (c : Char) (r : List Char) : List Char :=
  if isSpaceChar c then
    if (r.head?.map isSpaceChar).getD false then r else ' ' :: r
  else c :: r

/-- `re.sub(r'\s+', " ", sanitized)` (source line 275): every maximal run of
whitespace becomes a single space.  Written by structural recursion; the
equation `collapse_spaces_space` below recovers the run-based reading. -/
def collapse_spaces : List Char → List Char
  | [] => []
  | c :: rest => collapse_push c (collapse_spaces rest)

/-- The relation "not both whitespace" between adjacent output characters. -/
def no_two_spaces (a b : Char) : Prop :=
  ¬(isSpaceChar a = true ∧ isSpaceChar b = true)

/-- `collapse_spaces` replaces a whitespace character together with the
whitespace run following it by one single space — the literal reading of
`re.sub(r'\s+', " ", ·)`. -/
theorem collapse_spaces_space : ∀ (rest : List Char) (c : Char),
    isSpaceChar c = true →
    collapse_spaces (c :: rest) = ' ' :: collapse_spaces (rest.dropWhile isSpaceChar) := by
  intro rest
  induction rest with
  | nil => intro c hc; simp [collapse_spaces, collapse_push, hc]
  | cons d rest2 ih =>
    intro c hc
    by_cases hd : isSpaceChar d = true
    · have hrec := ih d hd
      show collapse_push c (collapse_spaces (d :: rest2)) = _
      rw [hrec]
      have hsp : isSpaceChar ' ' = true := rfl
      simp [collapse_push, hc, hsp, List.dropWhile_cons, hd, hrec]
    · have h1 : collapse_spaces (d :: rest2) = d :: collapse_spaces rest2 := by
        show collapse_push d (collapse_spaces rest2) = _
        simp [collapse_push, hd]
      show collapse_push c (collapse_spaces (d :: rest2)) = _
      rw [h1]
      simp [collapse_push, hc, hd, List.dropWhile_cons, h1]

theorem collapse_push_mem (c : Char) (r : List Char) :
    ∀ x ∈ collapse_push c r, x = ' ' ∨ (isSpaceChar c = false ∧ x = c) ∨ x ∈ r := by
  intro x hx
  unfold collapse_push at hx
  split at hx
  · split at hx
    · exact Or.inr (Or.inr hx)
    · rcases List.mem_cons.mp hx with h | h
      · exact Or.inl h
      · exact Or.inr (Or.inr h)
  · rcases List.mem_cons.mp hx with h | h
    · next hc => exact Or.inr (Or.inl ⟨by simpa using hc, h⟩)
    · exact Or.inr (Or.inr h)

theorem collapse_spaces_mem : ∀ (l : List Char), ∀ c ∈ collapse_spaces l,
    c = ' ' ∨ (isSpaceChar c = false ∧ c ∈ l) := by
  intro l
  induction l with
  | nil => simp [collapse_spaces]
  | cons x rest ih =>
    intro c hc
    rcases collapse_push_mem x (collapse_spaces rest) c hc with h | ⟨h1, h2⟩ | h
    · exact Or.inl h
    · exact Or.inr ⟨h2 ▸ h1, by simp [h2]⟩
    · rcases ih c h with h2 | ⟨h2, h3⟩
      · exact Or.inl h2
      · exact Or.inr ⟨h2, List.mem_cons_of_mem _ h3⟩

theorem collapse_push_chain (c : Char) (r : List Char)
    (ih : List.Chain' no_two_spaces r) :
    List.Chain' no_two_spaces (collapse_push c r) := by
  unfold collapse_push
  split
  · split
    · exact ih
    · next hcsp hhead =>
      refine List.chain'_cons'.mpr ⟨?_, ih⟩
      intro y hy
      cases r with
      | nil => simp at hy
      | cons d r2 =>
        simp only [List.head?_cons, Option.mem_def, Option.some.injEq] at hy
        subst hy
        simp only [List.head?_cons, Option.map_some, Option.getD_some] at hhead
        intro ⟨_, h2⟩
        simp [h2] at hhead
  · next hcsp =>
    refine List.chain'_cons'.mpr ⟨?_, ih⟩
    intro y hy
    intro ⟨h1, _⟩
    exact hcsp h1

theorem collapse_spaces_chain : ∀ (l : List Char),
    List.Chain' no_two_spaces (collapse_spaces l) := by
  intro l
  induction l with
  | nil => simp [collapse_spaces]
  | cons x rest ih => exact collapse_push_chain x _ ih

/-- The truncation of `_sanitize_filename` (source lines 277-278):
`if len(sanitized) > 50: sanitized = sanitized[:47] + "..."`. -/
def truncate_50 (s : List Char) : List Char :=
  if s.length > 50 then s.take 47 ++ "...".toList else s

/-- The emptiness fallback of `_sanitize_filename` (source lines 280-281):
`if not sanitized or sanitized.isspace(): sanitized = "unnamed_country"`.
`all isSpaceChar` is true exactly when the string is empty or all
whitespace. -/
def placeholder_if_blank (s : List Char) : List Char :=
  if s.all isSpaceChar then "unnamed_country".toList else s

/-- Python's `str.strip()`: remove leading and trailing whitespace. -/
def py_strip (s : List Char) : List Char :=
  ((s.dropWhile isSpaceChar).reverse.dropWhile isSpaceChar).reverse

/-- `_sanitize_filename` (source lines 262-282): replace illegal characters,
collapse whitespace runs, truncate with ellipsis, substitute the placeholder
for blank results, and strip. -/
def sanitize_filename (name : List Char) : List Char :=
  py_strip (placeholder_if_blank (truncate_50 (collapse_spaces (replace_illegal name))))

theorem replace_illegal_mem (s : List Char) :
    ∀ c ∈ replace_illegal s, c ∉ illegal_chars := by
  intro c hc
  unfold replace_illegal at hc
  rcases List.mem_map.mp hc with ⟨a, _, ha⟩
  by_cases h : a ∈ illegal_chars
  · rw [if_pos h] at ha
    rw [← ha]
    decide
  · rw [if_neg h] at ha
    rw [← ha]
    exact h

theorem truncate_50_length (s : List Char) : (truncate_50 s).length ≤ 50 := by
  unfold truncate_50
  split
  · next h =>
    simp only [List.length_append, List.length_take]
    have : "...".toList.length = 3 := rfl
    omega
  · next h => omega

theorem truncate_50_mem (s : List Char) :
    ∀ c ∈ truncate_50 s, c ∈ s ∨ c = '.' := by
  unfold truncate_50
  split
  · intro c hc
    rcases List.mem_append.mp hc with h | h
    · exact Or.inl ((List.take_sublist _ _).subset h)
    · right
      have : "...".toList = ['.', '.', '.'] := rfl
      rw [this] at h
      rcases List.mem_cons.mp h with h2 | h2
      · exact h2
      · rcases List.mem_cons.mp h2 with h3 | h3
        · exact h3
        · simpa using h3
  · intro c hc
    exact Or.inl hc

theorem py_strip_subset (s : List Char) : ∀ c ∈ py_strip s, c ∈ s := by
  intro c hc
  unfold py_strip at hc
  rw [List.mem_reverse] at hc
  have h1 := (List.dropWhile_suffix isSpaceChar).subset hc
  rw [List.mem_reverse] at h1
  exact (List.dropWhile_suffix isSpaceChar).subset h1

theorem py_strip_length_le (s : List Char) : (py_strip s).length ≤ s.length := by
  unfold py_strip
  rw [List.length_reverse]
  calc ((s.dropWhile isSpaceChar).reverse.dropWhile isSpaceChar).length
      ≤ (s.dropWhile isSpaceChar).reverse.length :=
        (List.dropWhile_suffix isSpaceChar).sublist.length_le
    _ = (s.dropWhile isSpaceChar).length := List.length_reverse _
    _ ≤ s.length := (List.dropWhile_suffix isSpaceChar).sublist.length_le

theorem chain_flip_no_two (l : List Char) (h : List.Chain' no_two_spaces l) :
    List.Chain' (flip no_two_spaces) l := by
  refine h.imp ?_
  intro a b hab
  intro ⟨h1, h2⟩
  exact hab ⟨h2, h1⟩

theorem py_strip_chain (s : List Char) (h : List.Chain' no_two_spaces s) :
    List.Chain' no_two_spaces (py_strip s) := by
  unfold py_strip
  have h1 : List.Chain' no_two_spaces (s.dropWhile isSpaceChar) :=
    h.suffix (List.dropWhile_suffix _)
  have h2 : List.Chain' no_two_spaces (s.dropWhile isSpaceChar).reverse :=
    List.chain'_reverse.mpr (chain_flip_no_two _ h1)
  have h3 : List.Chain' no_two_spaces
      ((s.dropWhile isSpaceChar).reverse.dropWhile isSpaceChar) :=
    h2.suffix (List.dropWhile_suffix _)
  exact List.chain'_reverse.mpr (chain_flip_no_two _ h3)

theorem chain_all_space_len (l : List Char) (hall : l.all isSpaceChar = true)
    (hch : List.Chain' no_two_spaces l) : l.length ≤ 1 := by
  cases l with
  | nil => simp
  | cons a t =>
    cases t with
    | nil => simp
    | cons b t2 =>
      exfalso
      have ha : isSpaceChar a = true := List.all_eq_true.mp hall a (by simp)
      have hb : isSpaceChar b = true := List.all_eq_true.mp hall b (by simp)
      have := (List.chain'_cons'.mp hch).1 b (by simp)
      exact this ⟨ha, hb⟩

theorem dropWhile_append_keep (p : Char → Bool) (t : List Char) (c : Char)
    (rs : List Char) (hc : p c = false) :
    ∃ a, (t ++ c :: rs).dropWhile p = a ++ c :: rs := by
  induction t with
  | nil => exact ⟨[], by simp [List.dropWhile_cons, hc]⟩
  | cons x tl ih =>
    by_cases hx : p x = true
    · simpa [List.dropWhile_cons, hx] using ih
    · refine ⟨x :: tl, ?_⟩
      simp [List.dropWhile_cons, hx]

theorem py_strip_dots (t : List Char) :
    ∃ a, py_strip (t ++ "...".toList) = a ++ "...".toList := by
  have hdot : isSpaceChar '.' = false := rfl
  obtain ⟨a, ha⟩ := dropWhile_append_keep isSpaceChar t '.' ['.', '.'] hdot
  refine ⟨a, ?_⟩
  unfold py_strip
  have h0 : t ++ "...".toList = t ++ '.' :: ['.', '.'] := rfl
  rw [h0, ha]
  have h2 : (a ++ '.' :: ['.', '.']).reverse = '.' :: '.' :: '.' :: a.reverse := by
    simp [List.reverse_append]
  rw [h2]
  have h3 : ('.' :: '.' :: '.' :: a.reverse).dropWhile isSpaceChar =
      '.' :: '.' :: '.' :: a.reverse := by
    simp [List.dropWhile_cons, hdot]
  rw [h3]
  simp

instance no_two_spaces_decidable : DecidableRel no_two_spaces := fun a b =>
  inferInstanceAs (Decidable (¬(isSpaceChar a = true ∧ isSpaceChar b = true)))

theorem chain_of_no_space (l : List Char) (h : ∀ c ∈ l, isSpaceChar c = false) :
    List.Chain' no_two_spaces l := by
  induction l with
  | nil => exact List.chain'_nil
  | cons a t ih =>
    refine List.chain'_cons'.mpr ⟨?_, ih (fun c hc => h c (List.mem_cons_of_mem _ hc))⟩
    intro y hy
    intro ⟨h1, _⟩
    rw [h a (by simp)] at h1
    cases h1

/-- Claim C7: `_sanitize_filename` replaces every illegal filename character
(`\ / * ? : " < > |`) with an underscore, collapses whitespace runs to single
spaces (no two adjacent whitespace characters survive, and every surviving
whitespace character is a plain space), truncates the collapsed string to 50
characters ending in the ellipsis marker `...` when it is longer, and
substitutes the fixed placeholder `unnamed_country` when it is blank; the
output never exceeds 50 characters and contains no illegal character. -/
theorem sanitize_filename_spec (s : List Char) :
    (sanitize_filename s).length ≤ 50 ∧
    (∀ c ∈ sanitize_filename s, c ∉ illegal_chars) ∧
    (∀ c ∈ sanitize_filename s, isSpaceChar c = true → c = ' ') ∧
    List.Chain' no_two_spaces (sanitize_filename s) ∧
    ((collapse_spaces (replace_illegal s)).length > 50 →
      ∃ t, sanitize_filename s = t ++ "...".toList) ∧
    ((collapse_spaces (replace_illegal s)).all isSpaceChar = true →
      sanitize_filename s = "unnamed_country".toList) := by
  have hmem : ∀ c ∈ collapse_spaces (replace_illegal s),
      c = ' ' ∨ (isSpaceChar c = false ∧ c ∈ replace_illegal s) :=
    collapse_spaces_mem _
  have hch : List.Chain' no_two_spaces (collapse_spaces (replace_illegal s)) :=
    collapse_spaces_chain _
  have hill : ∀ c ∈ collapse_spaces (replace_illegal s), c ∉ illegal_chars := by
    intro c hc
    rcases hmem c hc with h | ⟨_, h2⟩
    · subst h; decide
    · exact replace_illegal_mem s c h2
  by_cases hlen : (collapse_spaces (replace_illegal s)).length > 50
  · -- the truncation fires
    have hT : truncate_50 (collapse_spaces (replace_illegal s)) =
        (collapse_spaces (replace_illegal s)).take 47 ++ "...".toList := by
      unfold truncate_50; rw [if_pos hlen]
    have hTmem : ∀ c ∈ (collapse_spaces (replace_illegal s)).take 47 ++ "...".toList,
        c ∈ collapse_spaces (replace_illegal s) ∨ c = '.' := by
      intro c hc
      have := truncate_50_mem (collapse_spaces (replace_illegal s)) c (hT ▸ hc)
      exact this
    have hP : placeholder_if_blank ((collapse_spaces (replace_illegal s)).take 47
        ++ "...".toList) =
        (collapse_spaces (replace_illegal s)).take 47 ++ "...".toList := by
      unfold placeholder_if_blank
      rw [if_neg ?_]
      intro hall
      have := List.all_eq_true.mp hall '.' (by simp)
      exact absurd this (by decide)
    have hval : sanitize_filename s =
        py_strip ((collapse_spaces (replace_illegal s)).take 47 ++ "...".toList) := by
      unfold sanitize_filename
      rw [hT, hP]
    have hchT : List.Chain' no_two_spaces
        ((collapse_spaces (replace_illegal s)).take 47 ++ "...".toList) := by
      rw [List.chain'_append]
      refine ⟨ List.Chain'.infix hch ⟨[], (collapse_spaces (replace_illegal s)).drop 47, by simp⟩,
        chain_of_no_space _ (by decide), ?_⟩
      intro x hx y hy
      have hy' : '.' = y := by
        have h3 : "...".toList = ['.', '.', '.'] := rfl
        rw [h3] at hy
        simpa using hy
      subst hy'
      intro ⟨_, h2⟩
      exact absurd h2 (by decide)
    refine ⟨?_, ?_, ?_, ?_, ?_, ?_⟩
    · rw [hval]
      calc (py_strip _).length ≤ _ := py_strip_length_le _
        _ ≤ 50 := hT ▸ truncate_50_length (collapse_spaces (replace_illegal s))
    · intro c hc
      rw [hval] at hc
      rcases hTmem c (py_strip_subset _ c hc) with h | h
      · exact hill c h
      · subst h; decide
    · intro c hc hsp
      rw [hval] at hc
      rcases hTmem c (py_strip_subset _ c hc) with h | h
      · rcases hmem c h with h2 | ⟨h2, _⟩
        · exact h2
        · rw [h2] at hsp; cases hsp
      · subst h; cases hsp
    · rw [hval]
      exact py_strip_chain _ hchT
    · intro _
      rw [hval]
      exact py_strip_dots _
    · intro hall
      exfalso
      have := chain_all_space_len _ hall hch
      omega
  · -- no truncation
    have hT : truncate_50 (collapse_spaces (replace_illegal s)) =
        collapse_spaces (replace_illegal s) := by
      unfold truncate_50; rw [if_neg hlen]
    by_cases hall : (collapse_spaces (replace_illegal s)).all isSpaceChar = true
    · -- blank: placeholder fires
      have hP : placeholder_if_blank (collapse_spaces (replace_illegal s)) =
          "unnamed_country".toList := by
        unfold placeholder_if_blank; rw [if_pos hall]
      have hval : sanitize_filename s = py_strip "unnamed_country".toList := by
        unfold sanitize_filename
        rw [hT, hP]
      have hid : py_strip "unnamed_country".toList = "unnamed_country".toList := by decide
      rw [hval, hid]
      refine ⟨by decide, by decide, by decide, chain_of_no_space _ (by decide), ?_,
        fun _ => rfl⟩
      intro h
      exact absurd h hlen
    · have hP : placeholder_if_blank (collapse_spaces (replace_illegal s)) =
          collapse_spaces (replace_illegal s) := by
        unfold placeholder_if_blank; rw [if_neg hall]
      have hval : sanitize_filename s = py_strip (collapse_spaces (replace_illegal s)) := by
        unfold sanitize_filename
        rw [hT, hP]
      refine ⟨?_, ?_, ?_, ?_, ?_, ?_⟩
      · rw [hval]
        calc (py_strip _).length ≤ _ := py_strip_length_le _
          _ ≤ 50 := by omega
      · intro c hc
        rw [hval] at hc
        exact hill c (py_strip_subset _ c hc)
      · intro c hc hsp
        rw [hval] at hc
        rcases hmem c (py_strip_subset _ c hc) with h | ⟨h, _⟩
        · exact h
        · rw [h] at hsp; cases hsp
      · rw [hval]
        exact py_strip_chain _ hch
      · intro h
        exact absurd h hlen
      · intro h
        exact absurd h hall

/-- Witness for C7 at a concrete name containing `/`, `:` and repeated
spaces, long enough that the truncation fires. -/
theorem sanitize_filename_spec_witness :
    ((collapse_spaces (replace_illegal
      "a/b:c  dddddddddddddddddddddddddddddddddddddddddddddddddddddddd".toList)).length
        > 50) ∧
    ∃ t, sanitize_filename
      "a/b:c  dddddddddddddddddddddddddddddddddddddddddddddddddddddddd".toList =
        t ++ "...".toList :=
  ⟨by decide,
    (sanitize_filename_spec
      "a/b:c  dddddddddddddddddddddddddddddddddddddddddddddddddddddddd".toList).2.2.2.2.1
      (by decide)⟩

/-- Python's `line.split(':', 1)` (source line 760), reported as a pair when
the line contains a colon (the list returned by `split` has length 2 exactly
when `':' in line`): everything before the first colon and everything after
it. -/
def splitFirstColon : List Char → Option (List Char × List Char)
  | [] => none
  | c :: rest =>
    if c = ':' then some ([], rest)
    else
      match splitFirstColon rest with
      | some (a, b) => some (c :: a, b)
      | none => none

/-- The loop body of `get_countries_from_file` (source lines 754-771):
strip the line, skip it when blank, split at the first colon, skip (with a
warning, not modelled) when there is no colon, otherwise append the entity
with both parts stripped. -/
def country_step (countries : List (List Char × List Char)) (line : List Char) :
    List (List Char × List Char) :=
  let l := py_strip line
  if l = [] then countries
  else
    match splitFirstColon l with
    | some (a, b) => countries ++ [(py_strip a, py_strip b)]
    | none => countries

/-- `get_countries_from_file` (source lines 727-779), on the list of lines of
the input file (file access is outside the model): the accumulating loop over
all lines. -/
def get_countries_from_file (lines : List (List Char)) :
    List (List Char × List Char) :=
  lines.foldl country_step []

/-- The per-line contract in the spec's words: a line of the form `ID: Name`
(after stripping, non-blank and containing a colon) yields the entity whose
id is the whitespace-trimmed part before the first colon and whose name is
the whitespace-trimmed part after it; blank and colon-free lines yield
nothing. -/
def spec_parse_line (line : List Char) : Option (List Char × List Char) :=
  let l := py_strip line
  if l = [] then none
  else if ':' ∈ l then
    some (py_strip (l.takeWhile (fun c => c != ':')),
      py_strip ((l.dropWhile (fun c => c != ':')).drop 1))
  else none

theorem splitFirstColon_eq (l : List Char) :
    splitFirstColon l =
      if ':' ∈ l then
        some (l.takeWhile (fun c => c != ':'), (l.dropWhile (fun c => c != ':')).drop 1)
      else none := by
  induction l with
  | nil => simp [splitFirstColon]
  | cons c rest ih =>
    by_cases hc : c = ':'
    · subst hc
      simp [splitFirstColon, List.takeWhile_cons, List.dropWhile_cons]
    · rw [show splitFirstColon (c :: rest) =
          (match splitFirstColon rest with
           | some (a, b) => some (c :: a, b)
           | none => none) from by simp [splitFirstColon, hc]]
      rw [ih]
      by_cases hmem : ':' ∈ rest
      · rw [if_pos hmem, if_pos (List.mem_cons_of_mem _ hmem)]
        simp [List.takeWhile_cons, List.dropWhile_cons, hc]
      · rw [if_neg hmem, if_neg ?_]
        intro h
        rcases List.mem_cons.mp h with h2 | h2
        · exact hc h2.symm
        · exact hmem h2

theorem country_step_eq (acc : List (List Char × List Char)) (line : List Char) :
    country_step acc line = acc ++ (spec_parse_line line).toList := by
  by_cases h0 : py_strip line = []
  · simp [country_step, spec_parse_line, h0]
  · by_cases hmem : ':' ∈ py_strip line
    · simp [country_step, spec_parse_line, splitFirstColon_eq, h0, hmem]
    · simp [country_step, spec_parse_line, splitFirstColon_eq, h0, hmem]

/-- Claim C8: the entity-list parser produces one `(id, name)` entity per
line whose stripped form contains a colon, both components whitespace-
trimmed; blank lines and colon-free lines are skipped without aborting the
parse.  Stated as: the accumulating loop equals the per-line contract mapped
over the lines. -/
theorem get_countries_from_file_spec (lines : List (List Char)) :
    get_countries_from_file lines = lines.filterMap spec_parse_line := by
  unfold get_countries_from_file
  suffices h : ∀ acc, lines.foldl country_step acc = acc ++ lines.filterMap spec_parse_line by
    simpa using h []
  induction lines with
  | nil => intro acc; simp
  | cons x ls ih =>
    intro acc
    rw [List.foldl_cons, ih, country_step_eq]
    cases hx : spec_parse_line x with
    | none => simp [List.filterMap_cons, hx]
    | some b => simp [List.filterMap_cons, hx]

/-- Decimal digits of `n`, least significant first; `fuel` bounds the
recursion (`fuel = n` suffices). -/
def natDigitsAux : Nat → Nat → List Char
  | 0, _ => []
  | fuel+1, n => if n = 0 then [] else Nat.digitChar (n % 10) :: natDigitsAux fuel (n / 10)

/-- Decimal rendering of `n`, most significant digit first (empty for 0). -/
def natChars (n : Nat) : List Char := (natDigitsAux n n).reverse

/-- Python's `f"{n:03d}"` (source line 638): left-pad the decimal rendering
to width 3 with zeros. -/
def pad3 (n : Nat) : List Char :=
  List.replicate (3 - (natChars n).length) '0' ++ natChars n

/-- Decode a little-endian digit-character list back to the number. -/
def decodeLE : List Char → Nat
  | [] => 0
  | c :: rest => (c.toNat - '0'.toNat) + 10 * decodeLE rest

theorem decodeLE_natDigitsAux : ∀ (fuel n : Nat), n ≤ fuel →
    decodeLE (natDigitsAux fuel n) = n := by
  intro fuel
  induction fuel with
  | zero =>
    intro n hn
    have : n = 0 := Nat.le_zero.mp hn
    subst this
    rfl
  | succ fuel ih =>
    intro n hn
    by_cases h0 : n = 0
    · subst h0; simp [natDigitsAux, decodeLE]
    · have hdiv : n / 10 ≤ fuel := by
        have : n / 10 < n := Nat.div_lt_self (Nat.pos_of_ne_zero h0) (by omega)
        omega
      have hdigit : (Nat.digitChar (n % 10)).toNat - '0'.toNat = n % 10 := by
        have hlt : n % 10 < 10 := Nat.mod_lt _ (by omega)
        have : ∀ d, d < 10 → (Nat.digitChar d).toNat - '0'.toNat = d := by decide
        exact this _ hlt
      simp only [natDigitsAux, if_neg h0, decodeLE]
      rw [ih _ hdiv, hdigit]
      exact Nat.mod_add_div n 10

theorem decodeLE_append_zeros : ∀ (l : List Char) (k : Nat),
    decodeLE (l ++ List.replicate k '0') = decodeLE l := by
  intro l
  induction l with
  | nil =>
    intro k
    induction k with
    | zero => rfl
    | succ k ihk =>
      simp only [List.nil_append, List.replicate_succ, decodeLE]
      simp only [List.nil_append] at ihk
      rw [ihk]
      decide
  | cons c rest ih =>
    intro k
    simp only [List.cons_append, decodeLE, List.append_eq, ih]

theorem decodeLE_pad3 (n : Nat) : decodeLE (pad3 n).reverse = n := by
  unfold pad3
  rw [List.reverse_append, List.reverse_replicate]
  unfold natChars
  rw [List.reverse_reverse]
  rw [decodeLE_append_zeros]
  exact decodeLE_natDigitsAux n n le_rfl

theorem pad3_inj (a b : Nat) (h : pad3 a = pad3 b) : a = b := by
  have := congrArg (fun l => decodeLE l.reverse) h
  simpa [decodeLE_pad3] using this

theorem natDigitsAux_digits : ∀ (fuel n : Nat), ∀ c ∈ natDigitsAux fuel n,
    c.isDigit = true := by
  intro fuel
  induction fuel with
  | zero => intro n c hc; simp [natDigitsAux] at hc
  | succ fuel ih =>
    intro n c hc
    by_cases h0 : n = 0
    · subst h0; simp [natDigitsAux] at hc
    · simp only [natDigitsAux, if_neg h0] at hc
      rcases List.mem_cons.mp hc with h | h
      · subst h
        have hlt : n % 10 < 10 := Nat.mod_lt _ (by omega)
        have : ∀ d, d < 10 → (Nat.digitChar d).isDigit = true := by decide
        exact this _ hlt
      · exact ih _ c h

theorem pad3_no_dot (n : Nat) : ∀ c ∈ pad3 n, c ≠ '.' := by
  intro c hc
  unfold pad3 at hc
  rcases List.mem_append.mp hc with h | h
  · have := List.eq_of_mem_replicate h
    subst this
    decide
  · unfold natChars at h
    rw [List.mem_reverse] at h
    have := natDigitsAux_digits n n c h
    intro hdot
    subst hdot
    exact absurd this (by decide)

theorem append_dotfree_inj : ∀ (xs ys u v : List Char),
    (∀ c ∈ xs, c ≠ '.') → (∀ c ∈ ys, c ≠ '.') →
    xs ++ '.' :: u = ys ++ '.' :: v → xs = ys ∧ u = v := by
  intro xs
  induction xs with
  | nil =>
    intro ys u v hx hy h
    cases ys with
    | nil => simpa using h
    | cons b ys2 =>
      rw [List.nil_append, List.cons_append] at h
      injection h with h1 h2
      exact absurd h1.symm (hy b (by simp))
  | cons a xs2 ih =>
    intro ys u v hx hy h
    cases ys with
    | nil =>
      rw [List.cons_append, List.nil_append] at h
      injection h with h1 h2
      exact absurd h1 (hx a (by simp))
    | cons b ys2 =>
      rw [List.cons_append, List.cons_append] at h
      injection h with h1 h2
      obtain ⟨h3, h4⟩ := ih ys2 u v (fun c hc => hx c (List.mem_cons_of_mem _ hc))
        (fun c hc => hy c (List.mem_cons_of_mem _ hc)) h2
      exact ⟨by rw [h1, h3], h4⟩

/-- The provisional/converted filename of `_download_images`
(`f"{country_id}_{self._sanitize_filename(country_name)}_{i+1:03d}.{ext}"`,
source lines 638 and 664). -/
def mk_filename (cid cname : List Char) (i : Nat) (ext : List Char) : List Char :=
  cid ++ ('_' :: sanitize_filename cname) ++ ('_' :: pad3 (i+1)) ++ ('.' :: ext)

theorem mk_filename_inj (cid cname : List Char) (i j : Nat) (e1 e2 : List Char)
    (h : mk_filename cid cname i e1 = mk_filename cid cname j e2) :
    i = j ∧ e1 = e2 := by
  unfold mk_filename at h
  simp only [List.append_assoc, List.cons_append] at h
  have h2 := List.append_cancel_left h
  injection h2 with _ h3
  have h4 := List.append_cancel_left h3
  injection h4 with _ h5
  obtain ⟨h6, h7⟩ := append_dotfree_inj _ _ _ _ (pad3_no_dot (i+1)) (pad3_no_dot (j+1)) h5
  have h8 := pad3_inj _ _ h6
  exact ⟨by omega, h7⟩

/-- What the image-decode collaborator (`PIL.Image.open`) reports for a
successfully decoded file: `img.format` (possibly absent) and the pixel
size. -/
structure ImgInfo where
  format? : Option (List Char)
  width : Nat
  height : Nat

/-- Outcome of `requests.get` + `raise_for_status` when they do not raise:
the response `Content-Type` header, and whether streaming the body into the
opened file completes (`iter_content` can raise mid-transfer; by then the
file has already been created). -/
structure FetchOk where
  contentType : List Char
  streamOk : Bool

/-- The external collaborators' behaviour for one URL: the fetch (transport
error or non-2xx modelled as `.error`), the decode of the saved bytes, and
whether the conversion re-save (`img.save(new_output_path)`) succeeds. -/
structure UrlEnv where
  fetch : Except Unit FetchOk
  decode : Except Unit ImgInfo
  saveOk : Bool

/-- `img.format.lower() if img.format else "jpeg"` (source line 660). -/
def true_format (info : ImgInfo) : List Char :=
  match info.format? with
  | some f => f.map Char.toLower
  | none => "jpeg".toList

/-- One iteration of the download loop of `_download_images` (source lines
635-690), acting on the set of files on disk: fetch; skip on transport
error/non-2xx; skip on non-`image/` content type; create the provisional
`.jpg` file; a mid-stream failure leaves it behind; decode; on decode failure
delete the file; when the true format is not jpeg, save under the corrected
extension and delete the provisional file (a failing save deletes the
provisional file only); delete the file when either dimension is below 100;
otherwise record the final path. -/
def process_url (cid cname : List Char) (e : UrlEnv) (i : Nat)
    (files : Finset (List Char)) : Finset (List Char) × Option (List Char) :=
  match e.fetch with
  | .error _ => (files, none)
  | .ok fr =>
    if ("image/".toList.isPrefixOf fr.contentType) = false then (files, none)
    else
      let p := mk_filename cid cname i "jpg".toList
      let files1 := insert p files
      if fr.streamOk = false then (files1, none)
      else
        match e.decode with
        | .error _ => (files1.erase p, none)
        | .ok info =>
          if true_format info ≠ "jpeg".toList then
            if e.saveOk then
              let p2 := mk_filename cid cname i (true_format info)
              let files2 := (insert p2 files1).erase p
              if info.width < 100 ∨ info.height < 100 then (files2.erase p2, none)
              else (files2, some p2)
            else (files1.erase p, none)
          else
            if info.width < 100 ∨ info.height < 100 then (files1.erase p, none)
            else (files1, some p)

/-- A URL passes every step of the downloader: fetch ok, `image/` content
type, body streamed, decode ok, conversion (when needed) ok, both true
dimensions at least 100. -/
def passes (e : UrlEnv) : Bool :=
  match e.fetch with
  | .error _ => false
  | .ok fr =>
    "image/".toList.isPrefixOf fr.contentType && fr.streamOk &&
      (match e.decode with
       | .error _ => false
       | .ok info =>
         (decide (true_format info = "jpeg".toList) || e.saveOk) &&
           !(decide (info.width < 100) || decide (info.height < 100)))

/-- The final path recorded for a passing URL: the provisional `.jpg` path,
or the converted path when the true format is not jpeg. -/
def result_path (cid cname : List Char) (e : UrlEnv) (i : Nat) : List Char :=
  match e.decode with
  | .ok info =>
    if true_format info ≠ "jpeg".toList then mk_filename cid cname i (true_format info)
    else mk_filename cid cname i "jpg".toList
  | .error _ => mk_filename cid cname i "jpg".toList

/-- Environments consistent with the real collaborators: a completed fetch
streams its body (the per-claim hypothesis isolating the mid-stream failure
of the counterexample), and PIL never reports the format name `jpg` (its
JPEG decoder reports `JPEG`, lowercased `jpeg`). -/
def good_env (e : UrlEnv) : Prop :=
  (match e.fetch with
   | .ok fr => fr.streamOk = true
   | .error _ => True) ∧
  (match e.decode with
   | .ok info => true_format info ≠ "jpg".toList
   | .error _ => True)

/-- The download loop of `_download_images` over the remaining URLs, carrying
the enumeration index, the files on disk and the accumulated result list. -/
def dl_go (cid cname : List Char) (fe : List Char → UrlEnv) :
    List (List Char) → Nat → Finset (List Char) → List (List Char) →
      Finset (List Char) × List (List Char)
  | [], _, files, acc => (files, acc)
  | u :: rest, i, files, acc =>
    let step := process_url cid cname (fe u) i files
    dl_go cid cname fe rest (i+1) step.1 (acc ++ step.2.toList)

/-- `_download_images` (source lines 618-693): process every URL in order,
starting from an empty target directory and an empty result list; returns
the files on disk and the list of recorded paths. -/
def download_images (cid cname : List Char) (fe : List Char → UrlEnv)
    (urls : List (List Char)) : Finset (List Char) × List (List Char) :=
  dl_go cid cname fe urls 0 ∅ []

theorem process_url_spec (cid cname : List Char) (e : UrlEnv) (i : Nat)
    (files : Finset (List Char)) (hg : good_env e)
    (hni : ∀ ext, mk_filename cid cname i ext ∉ files) :
    process_url cid cname e i files =
      if passes e then
        (insert (result_path cid cname e i) files, some (result_path cid cname e i))
      else (files, none) := by
  obtain ⟨hg1, hg2⟩ := hg
  have hniJ : mk_filename cid cname i ['j', 'p', 'g'] ∉ files := hni _
  unfold process_url passes result_path
  cases hf : e.fetch with
  | error e0 => simp
  | ok fr =>
    rw [hf] at hg1
    have hstream : fr.streamOk = true := hg1
    cases hct : "image/".toList.isPrefixOf fr.contentType with
    | false =>
      have hct2 : ¬ ("image/".toList <+: fr.contentType) := by
        intro hp
        have h9 : "image/".toList.isPrefixOf fr.contentType = true :=
          List.isPrefixOf_iff_prefix.mpr hp
        rw [hct] at h9
        cases h9
      simp [show (['i', 'm', 'a', 'g', 'e', '/'].isPrefixOf fr.contentType) = false from hct,
        show ¬ (['i', 'm', 'a', 'g', 'e', '/'] <+: fr.contentType) from hct2]
    | true =>
      simp only [hct, hstream, Bool.true_and, Bool.not_false, if_false,
        Bool.false_eq_true, Bool.true_eq_false]
      cases hd : e.decode with
      | error e0 =>
        simp [Finset.erase_eq_of_not_mem, hniJ]
      | ok info =>
        rw [hd] at hg2
        have hjpg : true_format info ≠ "jpg".toList := hg2
        have hniF : mk_filename cid cname i (true_format info) ∉ files := hni _
        by_cases hfmt : true_format info = "jpeg".toList
        · have hfmt' : true_format info = ['j', 'p', 'e', 'g'] := hfmt
          by_cases hsmall : info.width < 100 ∨ info.height < 100
          · have hcond : ¬(100 ≤ info.width ∧ 100 ≤ info.height) := by omega
            simp [hfmt', hsmall, hcond, Finset.erase_eq_of_not_mem, hniJ]
          · have hcond : 100 ≤ info.width ∧ 100 ≤ info.height := by omega
            simp [hfmt', hsmall, hcond]
        · have hfmt' : ¬ true_format info = ['j', 'p', 'e', 'g'] := hfmt
          have hp2p : mk_filename cid cname i (true_format info) ≠
              mk_filename cid cname i ['j', 'p', 'g'] := by
            intro hcontra
            exact hjpg (mk_filename_inj _ _ _ _ _ _ hcontra).2
          by_cases hsave : e.saveOk = true
          · have hrw : ((insert (mk_filename cid cname i (true_format info))
                (insert (mk_filename cid cname i ['j', 'p', 'g']) files)).erase
                  (mk_filename cid cname i ['j', 'p', 'g'])) =
                insert (mk_filename cid cname i (true_format info)) files := by
              rw [Finset.erase_insert_of_ne hp2p]
              rw [Finset.erase_insert hniJ]
            by_cases hsmall : info.width < 100 ∨ info.height < 100
            · have hcond : ¬(100 ≤ info.width ∧ 100 ≤ info.height) := by omega
              simp only [hfmt', hsave, hsmall, hcond, hrw]
              simp [hfmt', hsave, hsmall, hcond, hrw, Finset.erase_eq_of_not_mem, hniF]
            · have hcond : 100 ≤ info.width ∧ 100 ≤ info.height := by omega
              simp [hfmt', hsave, hsmall, hcond, hrw]
          · have hsave' : e.saveOk = false := by
              revert hsave; cases e.saveOk <;> simp
            simp [hfmt', hsave', Finset.erase_eq_of_not_mem, hniJ]

theorem result_path_is_mk (cid cname : List Char) (e : UrlEnv) (i : Nat) :
    ∃ ext, result_path cid cname e i = mk_filename cid cname i ext := by
  cases hd : e.decode with
  | error e0 =>
    refine ⟨"jpg".toList, ?_⟩
    unfold result_path
    rw [hd]
  | ok info =>
    by_cases h : true_format info = ['j', 'p', 'e', 'g']
    · refine ⟨"jpg".toList, ?_⟩
      unfold result_path
      rw [hd]
      simp [h]
    · refine ⟨true_format info, ?_⟩
      unfold result_path
      rw [hd]
      simp [h]

theorem dl_go_spec (cid cname : List Char) (fe : List Char → UrlEnv) :
    ∀ (urls : List (List Char)) (i : Nat) (files : Finset (List Char))
      (acc : List (List Char)),
      (∀ u ∈ urls, good_env (fe u)) →
      files = acc.toFinset →
      acc.Nodup →
      (∀ p ∈ acc, ∃ j ext, j < i ∧ p = mk_filename cid cname j ext) →
      (dl_go cid cname fe urls i files acc).1 =
          ((dl_go cid cname fe urls i files acc).2).toFinset ∧
        ((dl_go cid cname fe urls i files acc).2).Nodup ∧
        ((dl_go cid cname fe urls i files acc).2).length =
          acc.length + urls.countP (fun u => passes (fe u)) ∧
        (∀ p ∈ (dl_go cid cname fe urls i files acc).2,
          ∃ j ext, j < i + urls.length ∧ p = mk_filename cid cname j ext) := by
  intro urls
  induction urls with
  | nil =>
    intro i files acc hg hfs hnd hidx
    refine ⟨by simpa [dl_go] using hfs, by simpa [dl_go] using hnd, by simp [dl_go], ?_⟩
    intro p hp
    simp only [dl_go] at hp
    obtain ⟨j, ext2, hj, hpe⟩ := hidx p hp
    exact ⟨j, ext2, by simpa using hj, hpe⟩
  | cons u rest ih =>
    intro i files acc hg hfs hnd hidx
    have hgu : good_env (fe u) := hg u (by simp)
    have hni : ∀ ext, mk_filename cid cname i ext ∉ files := by
      intro ext hmem
      rw [hfs, List.mem_toFinset] at hmem
      obtain ⟨j, ext2, hj, hpe⟩ := hidx _ hmem
      have := (mk_filename_inj _ _ _ _ _ _ hpe).1
      omega
    have hps := process_url_spec cid cname (fe u) i files hgu hni
    have hstep : dl_go cid cname fe (u :: rest) i files acc =
        dl_go cid cname fe rest (i+1)
          (process_url cid cname (fe u) i files).1
          (acc ++ (process_url cid cname (fe u) i files).2.toList) := by
      simp only [dl_go]
    cases hpass : passes (fe u) with
    | true =>
      have hstep2 : process_url cid cname (fe u) i files =
          (insert (result_path cid cname (fe u) i) files,
            some (result_path cid cname (fe u) i)) := by
        rw [hps, if_pos (by simp [hpass])]
      obtain ⟨ext0, hext0⟩ := result_path_is_mk cid cname (fe u) i
      have hrpnotin : result_path cid cname (fe u) i ∉ acc := by
        intro hmem
        obtain ⟨j, ext2, hj, hpe⟩ := hidx _ hmem
        rw [hext0] at hpe
        have := (mk_filename_inj _ _ _ _ _ _ hpe).1
        omega
      have h1 : insert (result_path cid cname (fe u) i) files =
          (acc ++ [result_path cid cname (fe u) i]).toFinset := by
        rw [hfs]
        rw [List.toFinset_append]
        simp only [List.toFinset_cons, List.toFinset_nil, insert_emptyc_eq]
        ext x
        constructor
        · intro hx
          rcases Finset.mem_insert.mp hx with h | h
          · exact Finset.mem_union.mpr (Or.inr (by simp [h]))
          · exact Finset.mem_union.mpr (Or.inl h)
        · intro hx
          rcases Finset.mem_union.mp hx with h | h
          · exact Finset.mem_insert.mpr (Or.inr h)
          · exact Finset.mem_insert.mpr (Or.inl (by simpa using h))
      have h2 : (acc ++ [result_path cid cname (fe u) i]).Nodup := by
        simp [List.nodup_append, hnd, hrpnotin]
      have h3 : ∀ p ∈ acc ++ [result_path cid cname (fe u) i],
          ∃ j ext, j < i+1 ∧ p = mk_filename cid cname j ext := by
        intro p hp
        rcases List.mem_append.mp hp with h | h
        · obtain ⟨j, ext2, hj, hpe⟩ := hidx _ h
          exact ⟨j, ext2, by omega, hpe⟩
        · have hpr : p = result_path cid cname (fe u) i := by simpa using h
          exact ⟨i, ext0, by omega, by rw [hpr, hext0]⟩
      have hrest := ih (i+1) (insert (result_path cid cname (fe u) i) files)
        (acc ++ [result_path cid cname (fe u) i])
        (fun v hv => hg v (by simp [hv])) h1 h2 h3
      rw [hstep, hstep2]
      dsimp only [Option.toList]
      refine ⟨hrest.1, hrest.2.1, ?_, ?_⟩
      · rw [hrest.2.2.1]
        simp only [List.countP_cons, List.length_append, List.length_cons,
          List.length_nil, hpass]
        simp [Nat.add_comm, Nat.add_assoc, Nat.add_left_comm]
      · intro p hp
        obtain ⟨j, ext2, hj, hpe⟩ := hrest.2.2.2 p hp
        refine ⟨j, ext2, ?_, hpe⟩
        simp only [List.length_cons]
        omega
    | false =>
      have hstep2 : process_url cid cname (fe u) i files = (files, none) := by
        rw [hps, if_neg (by simp [hpass])]
      have hrest := ih (i+1) files acc (fun v hv => hg v (by simp [hv])) hfs hnd
        (fun p hp => by
          obtain ⟨j, ext2, hj, hpe⟩ := hidx p hp
          exact ⟨j, ext2, by omega, hpe⟩)
      rw [hstep, hstep2]
      dsimp only [Option.toList]
      rw [List.append_nil]
      refine ⟨hrest.1, hrest.2.1, ?_, ?_⟩
      · rw [hrest.2.2.1]
        simp [List.countP_cons, hpass]
      · intro p hp
        obtain ⟨j, ext2, hj, hpe⟩ := hrest.2.2.2 p hp
        refine ⟨j, ext2, ?_, hpe⟩
        simp only [List.length_cons]
        omega

/-- A per-URL environment in which the fetch succeeds with an `image/`
content type but streaming the body fails after the file is created. -/
def streamFailEnv : UrlEnv :=
  { fetch := .ok { contentType := "image/jpeg".toList, streamOk := false },
    decode := .error (), saveOk := true }

/-- Claim C1, counterexample: a transport error *while streaming the body*
(after `open(output_path, "wb")` has created the file) is caught by the
per-URL handler, which performs no cleanup — the partial file stays on disk
although the URL produced no result, so the directory contents are not the
returned path list. -/
theorem download_images_partial_file_counterexample :
    (download_images "7".toList "x".toList (fun _ => streamFailEnv) ["u".toList]).2 = [] ∧
    (download_images "7".toList "x".toList (fun _ => streamFailEnv) ["u".toList]).1 ≠
      ((download_images "7".toList "x".toList (fun _ => streamFailEnv)
        ["u".toList]).2).toFinset := by
  decide

/-- Claim C1 (amended): provided no fetch fails while streaming the body
after the file is created (and the decoder never reports the format name
`jpg`, as PIL never does), a URL that fails any step leaves no file on disk,
failures never abort the batch, the returned list has exactly one distinct
path per URL that passed every step, and the files in the (initially empty)
target directory afterwards are exactly the returned paths.  A mid-stream
transport failure, however, leaves a partial file behind (see the
counterexample). -/
theorem download_images_disk_matches_results (cid cname : List Char)
    (fe : List Char → UrlEnv) (urls : List (List Char))
    (hg : ∀ u ∈ urls, good_env (fe u)) :
    (download_images cid cname fe urls).1 =
        ((download_images cid cname fe urls).2).toFinset ∧
      ((download_images cid cname fe urls).2).Nodup ∧
      ((download_images cid cname fe urls).2).length =
        urls.countP (fun u => passes (fe u)) := by
  unfold download_images
  have h := dl_go_spec cid cname fe urls 0 ∅ [] hg (by simp) (by simp) (by simp)
  exact ⟨h.1, h.2.1, by simpa using h.2.2.1⟩

/-- A per-URL environment in which every step succeeds. -/
def goodFetchEnv : UrlEnv :=
  { fetch := .ok { contentType := "image/jpeg".toList, streamOk := true },
    decode := .ok { format? := none, width := 200, height := 300 }, saveOk := true }

/-- Witness for C1's amended theorem at a concrete fully-successful batch. -/
theorem download_images_disk_matches_results_witness :
    (∀ u ∈ ["a.jpg".toList], good_env ((fun _ => goodFetchEnv) u)) ∧
    (download_images "7".toList "x".toList (fun _ => goodFetchEnv) ["a.jpg".toList]).1 =
      ((download_images "7".toList "x".toList (fun _ => goodFetchEnv)
        ["a.jpg".toList]).2).toFinset :=
  have hge : good_env goodFetchEnv :=
    ⟨rfl, show ("jpeg".toList : List Char) ≠ "jpg".toList from by decide⟩
  ⟨fun u hu => hge,
    (download_images_disk_matches_results "7".toList "x".toList (fun _ => goodFetchEnv)
      ["a.jpg".toList] (fun u hu => hge)).1⟩

/-- JSON values as produced by `json.loads`. -/
inductive Json where
  | str (s : List Char)
  | num (n : Int)
  | bool (b : Bool)
  | null
  | arr (items : List Json)
  | obj (fields : List (List Char × Json))

/-- The recognized keys of `_extract_images_from_json_object`
(source line 516). -/
def recognized_keys : List (List Char) :=
  ["image", "images", "photo", "photos", "thumbnail", "thumbnailUrl",
   "contentUrl"].map String.toList

/-- The per-value image test of `_extract_images_from_json_object` (source
line 520): `value.startswith("http") and any(ext in value.lower() for ext in
[".jpg", ".jpeg", ".png", ".webp"])` — the extension is a substring test, not
a suffix test. -/
def is_image_str (v : List Char) : Bool :=
  "http".toList.isPrefixOf v &&
    ([".jpg", ".jpeg", ".png", ".webp"].map String.toList).any
      (fun e => isSubOf e (v.map Char.toLower))

mutual
/-- `_extract_images_from_json_object` (source lines 506-546), as the set of
normalized URLs it adds to the accumulator.  Python dict keys are unique, so
the source's loop over the seven recognized keys with membership tests adds
the same set as testing each field's key against the recognized list. -/
def extract_images_from_json_object : Json → Finset (List Char)
  | .obj fields => extractFields fields
  | .arr items => extractList items
  | _ => ∅

/-- Per-field handling of a mapping: the recognized-key fast path on the
field's value, the unconditional recursion into the value, the rest. -/
def extractFields : List (List Char × Json) → Finset (List Char)
  | [] => ∅
  | (k, v) :: rest =>
    (if recognized_keys.contains k then extractRecognized v else ∅) ∪
      extractChild v ∪ extractFields rest

/-- Handling of the value under a recognized key (source lines 518-537):
collect qualifying strings, walk sequences, recurse into mappings. -/
def extractRecognized : Json → Finset (List Char)
  | .str s => if is_image_str s then {get_high_res_image_url s} else ∅
  | .arr items => extractArrItems items
  | .obj f => extractFields f
  | _ => ∅

/-- Elements of a sequence under a recognized key (source lines 527-534):
qualifying string elements are collected, mapping elements recurse, all
other elements are ignored. -/
def extractArrItems : List Json → Finset (List Char)
  | [] => ∅
  | .str s :: rest =>
    (if is_image_str s then {get_high_res_image_url s} else ∅) ∪ extractArrItems rest
  | .obj f :: rest => extractFields f ∪ extractArrItems rest
  | _ :: rest => extractArrItems rest

/-- The unconditional recursion into a mapping value (source lines 540-542):
only mapping and sequence values are entered — scalar values, strings
included, are not examined here. -/
def extractChild : Json → Finset (List Char)
  | .obj f => extractFields f
  | .arr l => extractList l
  | _ => ∅

/-- Recursion into every element of a sequence (source lines 544-546). -/
def extractList : List Json → Finset (List Char)
  | [] => ∅
  | j :: rest => extract_images_from_json_object j ∪ extractList rest
end

/-- An image URL string sitting under the unrecognized key `c`, three mapping
levels deep under the unrecognized keys `a` and `b`. -/
def deepJson : Json :=
  .obj [("a".toList, .obj [("b".toList,
    .obj [("c".toList, .str "https://x.com/a.jpg".toList)])])]

/-- Claim C2, counterexample: the walk collects nothing from `deepJson`, even
though its innermost value is an image URL — the unconditional recursion
descends only into mapping/sequence values, and a *string* value is examined
only under one of the seven recognized keys, never under `c`. -/
theorem json_walk_unrecognized_key_counterexample :
    is_image_str "https://x.com/a.jpg".toList = true ∧
    extract_images_from_json_object deepJson = ∅ := by
  decide

/-- Reachability by descending into mapping values and sequence elements —
the paths along which the walk recurses. -/
inductive JsonReach : Json → Json → Prop
  | refl (j : Json) : JsonReach j j
  | objVal {fields : List (List Char × Json)} {k : List Char} {v j : Json} :
      (k, v) ∈ fields → JsonReach v j → JsonReach (.obj fields) j
  | arrItem {items : List Json} {v j : Json} :
      v ∈ items → JsonReach v j → JsonReach (.arr items) j

theorem extractRecognized_sub : ∀ (fields : List (List Char × Json))
    (k : List Char) (v : Json), (k, v) ∈ fields →
    recognized_keys.contains k = true →
    extractRecognized v ⊆ extractFields fields := by
  intro fields
  induction fields with
  | nil => intro k v hkv; cases hkv
  | cons f rest ih =>
    intro k v hkv hk
    rcases List.mem_cons.mp hkv with h | h
    · obtain ⟨hk1, hv1⟩ := Prod.mk.injEq _ _ _ _ ▸ h.symm
      show extractRecognized v ⊆ extractFields (f :: rest)
      obtain ⟨fk, fv⟩ := f
      simp only [extractFields]
      have hfk : fk = k := by
        injection h.symm with h1 h2
      have hfv : fv = v := by
        injection h.symm with h1 h2
      subst hfk
      subst hfv
      rw [if_pos hk]
      intro x hx
      exact Finset.mem_union.mpr (Or.inl (Finset.mem_union.mpr (Or.inl hx)))
    · intro x hx
      obtain ⟨fk, fv⟩ := f
      simp only [extractFields]
      exact Finset.mem_union.mpr (Or.inr (ih k v h hk hx))

theorem extractChild_sub : ∀ (fields : List (List Char × Json))
    (k : List Char) (v : Json), (k, v) ∈ fields →
    extractChild v ⊆ extractFields fields := by
  intro fields
  induction fields with
  | nil => intro k v hkv; cases hkv
  | cons f rest ih =>
    intro k v hkv
    rcases List.mem_cons.mp hkv with h | h
    · obtain ⟨fk, fv⟩ := f
      have hfv : fv = v := by
        injection h.symm with h1 h2
      subst hfv
      simp only [extractFields]
      intro x hx
      exact Finset.mem_union.mpr (Or.inl (Finset.mem_union.mpr (Or.inr hx)))
    · intro x hx
      obtain ⟨fk, fv⟩ := f
      simp only [extractFields]
      exact Finset.mem_union.mpr (Or.inr (ih k v h hx))

theorem extract_sub_list : ∀ (items : List Json) (v : Json), v ∈ items →
    extract_images_from_json_object v ⊆ extractList items := by
  intro items
  induction items with
  | nil => intro v hv; cases hv
  | cons j rest ih =>
    intro v hv
    rcases List.mem_cons.mp hv with h | h
    · subst h
      simp only [extractList]
      intro x hx
      exact Finset.mem_union.mpr (Or.inl hx)
    · intro x hx
      simp only [extractList]
      exact Finset.mem_union.mpr (Or.inr (ih v h hx))

theorem extract_sub_child (v : Json) :
    extract_images_from_json_object v ⊆ extractChild v := by
  cases v with
  | obj f => intro x hx; simpa [extractChild, extract_images_from_json_object] using hx
  | arr l => intro x hx; simpa [extractChild, extract_images_from_json_object] using hx
  | str s => intro x hx; simp [extract_images_from_json_object] at hx
  | num n => intro x hx; simp [extract_images_from_json_object] at hx
  | bool b => intro x hx; simp [extract_images_from_json_object] at hx
  | null => intro x hx; simp [extract_images_from_json_object] at hx

/-- Claim C2 (amended): an image URL string that is the direct value of one
of the seven *recognized* keys is collected no matter how deeply its mapping
is nested under arbitrary (also unrecognized) keys or sequence elements,
because the walk recurses unconditionally into every mapping/sequence value.
A string under an unrecognized key is never collected — see the
counterexample. -/
theorem json_walk_recognized_key_found (j : Json)
    (fields : List (List Char × Json)) (k v : List Char)
    (hreach : JsonReach j (.obj fields)) (hkv : (k, .str v) ∈ fields)
    (hk : recognized_keys.contains k = true) (himg : is_image_str v = true) :
    get_high_res_image_url v ∈ extract_images_from_json_object j := by
  have hmono : ∀ (a b : Json), JsonReach a b →
      extract_images_from_json_object b ⊆ extract_images_from_json_object a := by
    intro a b hab
    induction hab with
    | refl j0 => exact fun x hx => hx
    | objVal hmem hre ih =>
      intro x hx
      have h1 := extract_sub_child _ (ih hx)
      have h2 := extractChild_sub _ _ _ hmem h1
      simpa [extract_images_from_json_object] using h2
    | arrItem hmem hre ih =>
      intro x hx
      have h1 := extract_sub_list _ _ hmem (ih hx)
      simpa [extract_images_from_json_object] using h1
  have hbase : get_high_res_image_url v ∈
      extract_images_from_json_object (.obj fields) := by
    have hsub := extractRecognized_sub fields k (.str v) hkv hk
    have hx : get_high_res_image_url v ∈ extractRecognized (.str v) := by
      simp [extractRecognized, himg]
    simpa [extract_images_from_json_object] using hsub hx
  exact hmono _ _ hreach hbase

/-- A deterministic 3-level instance for the amended C2: the image URL sits
under the recognized key `image`, itself nested under the unrecognized keys
`x` and `y`. -/
def witnessJson : Json :=
  .obj [("x".toList, .obj [("y".toList,
    .obj [("image".toList, .str "https://x.com/pic.jpg".toList)])])]

/-- Witness for C2's amended theorem at the 3-level instance. -/
theorem json_walk_recognized_key_found_witness :
    recognized_keys.contains "image".toList = true ∧
    is_image_str "https://x.com/pic.jpg".toList = true ∧
    get_high_res_image_url "https://x.com/pic.jpg".toList ∈
      extract_images_from_json_object witnessJson :=
  ⟨by decide, by decide,
    json_walk_recognized_key_found witnessJson
      [("image".toList, .str "https://x.com/pic.jpg".toList)]
      "image".toList "https://x.com/pic.jpg".toList
      (JsonReach.objVal (List.mem_cons_self _ _)
        (JsonReach.objVal (List.mem_cons_self _ _) (JsonReach.refl _)))
      (List.mem_cons_self _ _) (by decide) (by decide)⟩

/-- The collaborators and inputs of one `download_images_for_country` call
(source lines 152-238).  The four extractors catch their own exceptions and
return sets (source lines 309-504), so they appear as plain lists;
`_wait_for_page_load` swallows its own failures (source lines 304-307);
`driver.get`, `output_dir.mkdir` and `_create_zip_file` can raise. -/
structure CountryEnv where
  country_id : List Char
  country_name : List Char
  mkdir : Except Unit Unit
  navigate : Except Unit Unit
  search_results_images : List (List Char)
  page_content_images : List (List Char)
  jsonld_images : List (List Char)
  embedded_json_images : List (List Char)
  fetchEnv : List Char → UrlEnv
  max_images : Int
  no_zip : Bool
  zip_only : Bool
  zip_result : Except Unit Unit

/-- The guarded region of `download_images_for_country` (the `try` block,
source lines 173-233): navigate, union the four extractors' outputs (the
Python set union is modelled as concatenation plus `dedup`), filter,
truncate, download, optionally zip (the zip-only removal deletes files the
downloader just wrote, modelled as non-failing), and return the number of
downloaded images. -/
def try_body (env : CountryEnv) : Except Unit Nat := do
  env.navigate
  let urls := (env.search_results_images ++ env.page_content_images ++
    env.jsonld_images ++ env.embedded_json_images).dedup
  let urls := filter_image_urls urls
  let urls := limit_images urls env.max_images
  let downloaded := (download_images env.country_id env.country_name
    env.fetchEnv urls).2
  if !env.no_zip then do
    env.zip_result
    pure downloaded.length
  else
    pure downloaded.length

/-- The count the entity contributes: the guarded region's value, or 0 when
it failed (the `except` handler, source lines 235-238). -/
def entity_count (env : CountryEnv) : Nat :=
  match try_body env with
  | .ok n => n
  | .error _ => 0

/-- `download_images_for_country` (source lines 152-238): the search-URL
construction and the filename sanitation are pure and cannot raise, but
`output_dir.mkdir(exist_ok=True)` (source line 170) runs *before* the `try`
block — a failure there (for instance, the output path existing as a regular
file) propagates to the caller; every failure inside the `try` block is
caught and turned into a return of 0. -/
def download_images_for_country (env : CountryEnv) : Except Unit Nat :=
  match env.mkdir with
  | .error e => .error e
  | .ok _ =>
    match try_body env with
    | .ok n => .ok n
    | .error _ => .ok 0

/-- The accumulation loop of `main` (source lines 848-856): each entity's
count is added to the running total; `main`'s own try/except terminates the
run when an exception escapes `download_images_for_country`, which the
`Except` models. -/
def main_total (envs : List CountryEnv) : Except Unit Nat :=
  envs.foldlM (fun total env => do
    let n ← download_images_for_country env
    pure (total + n)) 0

/-- A per-entity environment whose output-directory creation fails (for
instance, the target path already exists as a regular file). -/
def mkdirFailEnv : CountryEnv :=
  { country_id := "1".toList, country_name := "x".toList,
    mkdir := .error (), navigate := .ok (),
    search_results_images := [], page_content_images := [],
    jsonld_images := [], embedded_json_images := [],
    fetchEnv := fun _ => goodFetchEnv, max_images := 10,
    no_zip := false, zip_only := false, zip_result := .ok () }

/-- Claim C9, counterexample: `output_dir.mkdir` (source line 170) runs
before the `try` block of `download_images_for_country`, so its failure
propagates out of the orchestrator instead of yielding a return of 0 — the
run does not proceed to the next entity (`main` catches it and exits 1). -/
theorem orchestrator_mkdir_counterexample :
    download_images_for_country mkdirFailEnv = .error () := rfl

/-- Claim C9 (amended): any uncaught failure *inside the guarded region* —
navigation, extraction, filtering, download, packaging — yields 0 images for
the entity instead of raising, and when every entity's output-directory
creation succeeds the top-level total is exactly the sum of the per-entity
counts; a failure of the per-entity directory creation, which precedes the
guarded region, does propagate (see the counterexample). -/
theorem orchestrator_error_containment (envs : List CountryEnv)
    (hmk : ∀ e ∈ envs, e.mkdir = .ok ()) :
    main_total envs = .ok ((envs.map entity_count).sum) ∧
    (∀ e : CountryEnv, e.navigate = .error () → entity_count e = 0) ∧
    (∀ e : CountryEnv, e.navigate = .ok () → e.no_zip = false →
      e.zip_result = .error () → entity_count e = 0) := by
  have hdcf : ∀ e : CountryEnv, e.mkdir = .ok () →
      download_images_for_country e = .ok (entity_count e) := by
    intro e he
    unfold download_images_for_country entity_count
    rw [he]
    cases htb : try_body e <;> simp
  have hfold : ∀ (l : List CountryEnv) (t : Nat), (∀ e ∈ l, e.mkdir = .ok ()) →
      l.foldlM (fun total env => do
        let n ← download_images_for_country env
        pure (total + n)) t = .ok (t + (l.map entity_count).sum) := by
    intro l
    induction l with
    | nil => intro t ht; rfl
    | cons e rest ih =>
      intro t ht
      rw [List.foldlM_cons]
      rw [hdcf e (ht e (by simp))]
      show (rest.foldlM _ (t + entity_count e) : Except Unit Nat) = _
      rw [ih (t + entity_count e) (fun x hx => ht x (by simp [hx]))]
      simp [Nat.add_assoc]
  refine ⟨by simpa using hfold envs 0 hmk, ?_, ?_⟩
  · intro e he
    unfold entity_count try_body
    rw [he]
    rfl
  · intro e h1 h2 h3
    unfold entity_count try_body
    rw [h1, h2, h3]
    rfl

/-- A fully healthy per-entity environment (no images found, no zip). -/
def okCountryEnv : CountryEnv :=
  { country_id := "1".toList, country_name := "x".toList,
    mkdir := .ok (), navigate := .ok (),
    search_results_images := [], page_content_images := [],
    jsonld_images := [], embedded_json_images := [],
    fetchEnv := fun _ => goodFetchEnv, max_images := 10,
    no_zip := true, zip_only := false, zip_result := .ok () }

/-- Witness for C9's amended theorem at a concrete one-entity run. -/
theorem orchestrator_error_containment_witness :
    (∀ e ∈ [okCountryEnv], e.mkdir = .ok ()) ∧
    main_total [okCountryEnv] = .ok (([okCountryEnv].map entity_count).sum) :=
  ⟨fun e he => by rw [List.mem_singleton.mp he]; rfl, 
    (orchestrator_error_containment [okCountryEnv]
      (fun e he => by rw [List.mem_singleton.mp he]; rfl)).1⟩
